import Mathlib

/-!
Verification of `musicRecognition&Organization/main.py`.

The script scans a directory tree for audio files of a given extension,
sends each file to a recognition client, and renames files according to
the returned metadata.  We embed the pure core of the script:

* filename sanitization (the list comprehension plus `.replace(" ", "_")`),
* file enumeration (`Path.rglob` over a modelled file system),
* the result-processing loop of `process_music_files`, including the
  `results.index(result)` pairing and the guarded `Path.rename` call,
* the directory check and exit codes of `main`.

Paths are modelled as lists of components, the file system as an
association list from paths to content identifiers, and the external
Shazam client as an injected function from paths to responses.  Console
output and network requests are modelled as an event trace.  `Path.rename`
follows POSIX semantics: it raises if the source is missing and silently
replaces an existing destination.
-/

namespace MusicOrg

/-- A file-system path, as its list of components. -/
abbrev Path : Type := List String

/-! ### Filename sanitization

Embeds
`new_filename = "".join([c for c in new_filename if c.isalnum() or c in " -_."]).replace(" ", "_")`.
`str.isalnum` is modelled on its ASCII fragment (`Char.isAlphanum`),
which agrees with Python on every string appearing in the script's use. -/

/-- Model of Python `str.isalnum` on a single character (ASCII fragment). -/
def py_isalnum (c : Char) : Bool := c.isAlphanum

/-- The character filter of the list comprehension:
`c.isalnum() or c in " -_."`. -/
def keepChar (c : Char) : Bool :=
  py_isalnum c || c == ' ' || c == '-' || c == '_' || c == '.'

/-- One character of `.replace(" ", "_")` (the pattern is a single char,
so the replacement acts characterwise). -/
def replaceSpace (c : Char) : Char := if c == ' ' then '_' else c

/-- The sanitization pipeline on a list of characters. -/
def sanitizeList (l : List Char) : List Char :=
  (l.filter keepChar).map replaceSpace

/-- The sanitization step applied to a candidate filename. -/
def sanitize (s : String) : String := ⟨sanitizeList s.toList⟩

/-- `f"{artist} - {title}.{extension}"` followed by sanitization, with the
`.get` defaults of the script, taking the response's `track` fields. -/
def newFilenameOf (title? subtitle? : Option String) (extension : String) : String :=
  let title := title?.getD "Unknown Title"
  let artist := subtitle?.getD "Unknown Artist"
  sanitize (artist ++ " - " ++ title ++ "." ++ extension)

/-! ### File-system model and events -/

/-- A file system: an association of file paths to content identifiers. -/
abbrev FS : Type := List (Path × Nat)

/-- `Path(p).exists()`. -/
def fsExists (fs : FS) (p : Path) : Bool := fs.any (fun e => e.1 = p)

/-- The content stored at a path, if any. -/
def fsGet (fs : FS) (p : Path) : Option Nat :=
  (fs.find? (fun e => e.1 = p)).map Prod.snd

/-- Observable actions of one run: the "no files found" report, one network
request per recognition call, the per-file "no song information" report,
the "Renaming X to Y" report, and an actual rename of the file system. -/
inductive Event : Type where
  | noFiles : Event
  | network : Path → Event
  | noMatch : Path → Event
  | renameMsg : Path → String → Event
  | renamed : Path → Path → Event
deriving DecidableEq

instance {ε α : Type _} [DecidableEq ε] [DecidableEq α] : DecidableEq (Except ε α) := fun a b =>
  match a, b with
  | .error e, .error e' =>
    if h : e = e' then .isTrue (by rw [h]) else .isFalse (by intro hc; cases hc; exact h rfl)
  | .error _, .ok _ => .isFalse (by intro hc; cases hc)
  | .ok _, .error _ => .isFalse (by intro hc; cases hc)
  | .ok a, .ok a' =>
    if h : a = a' then .isTrue (by rw [h]) else .isFalse (by intro hc; cases hc; exact h rfl)

/-- POSIX `Path.rename`: raises `FileNotFoundError` when the source is
missing, otherwise moves the source's content to the destination, silently
replacing any file already there. -/
def pyRename (fs : FS) (src dst : Path) : Except String FS :=
  match fsGet fs src with
  | none => .error "FileNotFoundError"
  | some c => .ok ((fs.filter fun e => !(e.1 = src || e.1 = dst)) ++ [(dst, c)])

/-- The guarded rename line of the script:
`Path(working_file).rename(directory / new_filename) if Path(working_file).exists() else None`,
together with the rename event it produces when it acts. -/
def renameStep (fs : FS) (src dst : Path) : Except String (FS × List Event) :=
  if fsExists fs src then
    match pyRename fs src dst with
    | .error e => .error e
    | .ok fs2 => .ok (fs2, [.renamed src dst])
  else .ok (fs, [])

/-! ### Recognition client -/

/-- The `"track"` record of a Shazam response: optional `title` and
`subtitle` fields (`track.get("title", ...)`, `track.get("subtitle", ...)`). -/
structure Track : Type where
  title : Option String
  subtitle : Option String
deriving DecidableEq

/-- A Shazam response: `res["track"]` raises `KeyError` when the field is
absent, modelled by `none`. -/
structure RecResponse : Type where
  track : Option Track
deriving DecidableEq

/-! ### File enumeration

`get_music_files_sync` returns `directory.rglob(f"*.{extension}")`: every
path strictly below `directory` whose final component matches `*.{ext}`. -/

/-- `p` lies strictly below `directory` in the tree. -/
def underDir (directory p : Path) : Bool :=
  decide (List.take (List.length directory) p = directory) &&
    decide (List.length directory < List.length p)

/-- `str.endswith`, spelled out on the character lists so that it
computes by reduction. -/
def strEndsWith (s suff : String) : Bool :=
  decide (s.toList.drop (s.toList.length - suff.toList.length) = suff.toList)

/-- The glob pattern `*.{extension}` on a path's final component. -/
def matchesGlob (p : Path) (extension : String) : Bool :=
  strEndsWith (List.getLastD p "") ("." ++ extension)

/-- `get_music_files_sync(directory, extension)`: the files of the tree
below `directory` whose name matches `*.{extension}`. -/
def get_music_files_sync (fs : FS) (directory : Path) (extension : String) :
    List Path :=
  (fs.map Prod.fst).filter fun p => underDir directory p && matchesGlob p extension

/-! ### The processing loop -/

/-- Python `list.index`: the index of the first element equal to `x`. -/
def list_index [DecidableEq α] (l : List α) (x : α) : Nat :=
  l.findIdx fun y => decide (y = x)

/-- The task list of the `TaskGroup`: each `create_task` call returns a
fresh task object, so tasks compare by identity; a task is its creation
index paired with its result. -/
def tasksOf (files : List Path) (results : List RecResponse) :
    List (Nat × RecResponse) :=
  (List.range files.length).zip results

/-- The body of the `for result in results` loop once `working_file` is
fixed: extract the track (`KeyError` keeps the original name), build and
sanitize the filename, report, and do the guarded rename into
`directory / new_filename`. -/
def handleResult (directory : Path) (extension : String) (fs : FS)
    (working_file : Path) (res : RecResponse) : Except String (FS × List Event) :=
  match res.track with
  | none => .ok (fs, [.noMatch working_file])
  | some track =>
    let new_filename := newFilenameOf track.title track.subtitle extension
    match renameStep fs working_file (directory ++ [new_filename]) with
    | .error e => .error e
    | .ok (fs2, revs) => .ok (fs2, .renameMsg working_file new_filename :: revs)

/-- The `for result in results` loop itself: each iteration recovers its
file as `music_files[results.index(result)]` over the full task list. -/
def processAux (directory : Path) (extension : String) (files : List Path)
    (allTasks : List (Nat × RecResponse)) :
    FS → List (Nat × RecResponse) → Except String (FS × List Event)
  | fs, [] => .ok (fs, [])
  | fs, t :: rest =>
    let working_file := files.getD (list_index allTasks t) []
    match handleResult directory extension fs working_file t.2 with
    | .error e => .error e
    | .ok (fs1, evs1) =>
      match processAux directory extension files allTasks fs1 rest with
      | .error e => .error e
      | .ok (fs2, evs2) => .ok (fs2, evs1 ++ evs2)

/-- `process_music_files`: enumerate, bail out with a report when nothing
matches, otherwise issue one recognition request per file (the network
events) and run the processing loop over the task list. -/
def process_music_files (fs : FS) (directory : Path) (extension : String)
    (recognize : Path → RecResponse) : Except String (FS × List Event) :=
  let music_files := get_music_files_sync fs directory extension
  if music_files.length = 0 then .ok (fs, [.noFiles])
  else
    let results := music_files.map recognize
    let tasks := tasksOf music_files results
    match processAux directory extension music_files tasks fs tasks with
    | .error e => .error e
    | .ok (fs2, evs) => .ok (fs2, music_files.map Event.network ++ evs)

/-- The tail of `main`: `target_dir.exists() or target_dir.is_dir()` gates
`exit(1)`; otherwise the client is built and `process_music_files` runs,
ending with exit code 0.  The result is the exit code, the final file
system and the event trace. -/
def main (target_exists target_is_dir : Bool) (fs : FS) (target_dir : Path)
    (extension : String) (recognize : Path → RecResponse) :
    Except String (Nat × FS × List Event) :=
  if !(target_exists || target_is_dir) then .ok (1, fs, [])
  else
    match process_music_files fs target_dir extension recognize with
    | .error e => .error e
    | .ok (fs2, evs) => .ok (0, fs2, evs)

/-- Modelled from the spec: the Renamer consumes, "for each completed
result, in enumeration order", the result belonging to that file — the
i-th result is handled with the i-th discovered file.  This is the
intended pairing, to be compared with `processAux`'s
`results.index(result)` lookup. -/
def processPairs (directory : Path) (extension : String) :
    FS → List (Path × RecResponse) → Except String (FS × List Event)
  | fs, [] => .ok (fs, [])
  | fs, (f, r) :: rest =>
    match handleResult directory extension fs f r with
    | .error e => .error e
    | .ok (fs1, evs1) =>
      match processPairs directory extension fs1 rest with
      | .error e => .error e
      | .ok (fs2, evs2) => .ok (fs2, evs1 ++ evs2)

/-- The source files of the rename operations of a trace. -/
def renameSources (evs : List Event) : List Path :=
  evs.filterMap fun e =>
    match e with
    | .renamed src _ => some src
    | _ => none

/-- The recognition requests of a trace. -/
def networkRequests (evs : List Event) : List Path :=
  evs.filterMap fun e =>
    match e with
    | .network p => some p
    | _ => none

/-! ### Sanitization lemmas -/

lemma keepChar_underscore : keepChar '_' = true := by decide

lemma replaceSpace_of_keep (c : Char) :
    keepChar (replaceSpace c) = true ↔ (keepChar c = true ∨ c == ' ') := by
  unfold replaceSpace
  by_cases h : c == ' '
  · simp [h, keepChar_underscore]
  · simp [h]

lemma replaceSpace_idem (c : Char) :
    replaceSpace (replaceSpace c) = replaceSpace c := by
  unfold replaceSpace
  by_cases h : c == ' '
  · simp [h]
  · simp [h]

lemma sanitizeList_idem (l : List Char) :
    sanitizeList (sanitizeList l) = sanitizeList l := by
  unfold sanitizeList
  rw [List.filter_eq_self.mpr, List.map_map]
  · apply List.map_congr_left
    intro c _
    exact replaceSpace_idem c
  · intro c hc
    rcases List.mem_map.mp hc with ⟨d, hd, rfl⟩
    rcases List.mem_filter.mp hd with ⟨-, hkeep⟩
    exact (replaceSpace_of_keep d).mpr (Or.inl hkeep)

/-! ### Rename-step lemmas -/

lemma fsGet_isSome_of_fsExists (fs : FS) (p : Path) (h : fsExists fs p = true) :
    ∃ c, fsGet fs p = some c := by
  unfold fsExists at h
  unfold fsGet
  rcases List.any_eq_true.mp h with ⟨e, he, hp⟩
  have hsome : (fs.find? fun e => decide (e.1 = p)).isSome := by
    rw [List.find?_isSome]
    exact ⟨e, he, hp⟩
  rcases Option.isSome_iff_exists.mp hsome with ⟨e', he'⟩
  exact ⟨e'.2, by rw [he']; rfl⟩

lemma renameStep_ok (fs : FS) (src dst : Path) :
    ∃ r, renameStep fs src dst = .ok r := by
  unfold renameStep
  by_cases h : fsExists fs src
  · rcases fsGet_isSome_of_fsExists fs src h with ⟨c, hc⟩
    unfold pyRename
    rw [if_pos h, hc]
    exact ⟨_, rfl⟩
  · rw [if_neg h]
    exact ⟨_, rfl⟩

lemma renameStep_events (fs : FS) (src dst : Path) (r : FS × List Event)
    (h : renameStep fs src dst = .ok r) :
    r.2 = [] ∨ r.2 = [Event.renamed src dst] := by
  unfold renameStep at h
  by_cases hex : fsExists fs src
  · rw [if_pos hex] at h
    cases hpy : pyRename fs src dst with
    | error e => rw [hpy] at h; cases h
    | ok fs2 =>
      rw [hpy] at h
      cases h
      right
      rfl
  · rw [if_neg hex] at h
    cases h
    left
    rfl

lemma handleResult_ok (directory : Path) (extension : String) (fs : FS)
    (f : Path) (r : RecResponse) :
    ∃ out, handleResult directory extension fs f r = .ok out := by
  unfold handleResult
  cases hr : r.track with
  | none => exact ⟨_, rfl⟩
  | some track =>
    rcases renameStep_ok fs f
        (directory ++ [newFilenameOf track.title track.subtitle extension]) with ⟨⟨fs2, revs⟩, hrs⟩
    simp only [hrs]
    exact ⟨_, rfl⟩

/-! ### Loop totality -/

lemma processAux_ok (directory : Path) (extension : String) (files : List Path)
    (allTasks : List (Nat × RecResponse)) :
    ∀ todo fs, ∃ r, processAux directory extension files allTasks fs todo = .ok r := by
  intro todo
  induction todo with
  | nil => exact fun fs => ⟨_, rfl⟩
  | cons t rest ih =>
    intro fs
    rcases handleResult_ok directory extension fs
        (files.getD (list_index allTasks t) []) t.2 with ⟨⟨fs1, evs1⟩, h1⟩
    rcases ih fs1 with ⟨⟨fs2, evs2⟩, h2⟩
    refine ⟨(fs2, evs1 ++ evs2), ?_⟩
    unfold processAux
    simp only [h1, h2]

lemma processPairs_ok (directory : Path) (extension : String) :
    ∀ pairs fs, ∃ r, processPairs directory extension fs pairs = .ok r := by
  intro pairs
  induction pairs with
  | nil => exact fun fs => ⟨_, rfl⟩
  | cons p rest ih =>
    intro fs
    rcases handleResult_ok directory extension fs p.1 p.2 with ⟨⟨fs1, evs1⟩, h1⟩
    rcases ih fs1 with ⟨⟨fs2, evs2⟩, h2⟩
    refine ⟨(fs2, evs1 ++ evs2), ?_⟩
    show processPairs directory extension fs ((p.1, p.2) :: rest) = _
    unfold processPairs
    simp only [h1, h2]

/-! ### The `results.index(result)` pairing -/

lemma list_index_getElem {α β : Type} [DecidableEq α] [DecidableEq β]
    (l : List (α × β)) (hnd : (l.map Prod.fst).Nodup) :
    ∀ k, (hk : k < l.length) → list_index l l[k] = k := by
  induction l with
  | nil => intro k hk; simp at hk
  | cons a l ih =>
    intro k hk
    rw [List.map_cons, List.nodup_cons] at hnd
    cases k with
    | zero =>
      unfold list_index
      rw [List.findIdx_cons]
      simp
    | succ k =>
      have hk' : k < l.length := by simpa using hk
      have hmem : l[k] ∈ l := l.getElem_mem hk'
      have hne : ¬(a = (a :: l)[k + 1]) := by
        rw [List.getElem_cons_succ]
        intro hEq
        exact hnd.1 (hEq ▸ List.mem_map_of_mem Prod.fst hmem)
      unfold list_index
      rw [List.findIdx_cons]
      have hdec : decide (a = (a :: l)[k + 1]) = false := decide_eq_false hne
      rw [hdec]
      have := ih hnd.2 k hk'
      unfold list_index at this
      simp only [List.getElem_cons_succ] at *
      rw [this]
      rfl

/-! ### The loop agrees with the in-order pairing -/

lemma processAux_drop (directory : Path) (extension : String) (files : List Path)
    (results : List RecResponse) (hl : results.length = files.length) :
    ∀ m k fs, files.length - k ≤ m →
      processAux directory extension files (tasksOf files results) fs
          ((tasksOf files results).drop k)
        = processPairs directory extension fs ((files.zip results).drop k) := by
  have hlen : (tasksOf files results).length = files.length := by
    unfold tasksOf
    rw [List.length_zip, List.length_range, hl, min_self]
  have hplen : (files.zip results).length = files.length := by
    rw [List.length_zip, hl, min_self]
  intro m
  induction m with
  | zero =>
    intro k fs hm
    have hk : files.length ≤ k := Nat.le_of_sub_eq_zero (Nat.le_zero.mp hm)
    rw [List.drop_eq_nil_of_le (hlen ▸ hk), List.drop_eq_nil_of_le (hplen ▸ hk)]
    rfl
  | succ m ih =>
    intro k fs hm
    by_cases hk : k < files.length
    · have hkt : k < (tasksOf files results).length := hlen ▸ hk
      have hkp : k < (files.zip results).length := hplen ▸ hk
      have hkr : k < results.length := hl ▸ hk
      rw [List.drop_eq_getElem_cons hkt, List.drop_eq_getElem_cons hkp]
      have htask : (tasksOf files results)[k] = (k, results[k]) := by
        unfold tasksOf
        rw [List.getElem_zip, List.getElem_range]
      have hpair : (files.zip results)[k] = (files[k], results[k]) := List.getElem_zip
      have hidx : list_index (tasksOf files results) (tasksOf files results)[k] = k := by
        apply list_index_getElem
        · unfold tasksOf
          rw [List.map_fst_zip _ _ (by rw [List.length_range, hl])]
          exact List.nodup_range _
      have hget : files.getD k [] = files[k] := by
        rw [List.getD_eq_getElem?_getD, List.getElem?_eq_getElem hk]
        rfl
      rw [hpair]
      unfold processAux processPairs
      rw [hidx, hget, htask]
      simp only []
      cases hh : handleResult directory extension fs files[k] results[k] with
      | error e => rfl
      | ok out =>
        rcases out with ⟨fs1, evs1⟩
        have hrec := ih (k + 1) fs1 (by omega)
        simp only []
        rw [hrec]
    · have hge : files.length ≤ k := Nat.le_of_not_lt hk
      rw [List.drop_eq_nil_of_le (hlen ▸ hge), List.drop_eq_nil_of_le (hplen ▸ hge)]
      rfl

lemma processAux_eq_processPairs (directory : Path) (extension : String)
    (files : List Path) (results : List RecResponse)
    (hl : results.length = files.length) (fs : FS) :
    processAux directory extension files (tasksOf files results) fs (tasksOf files results)
      = processPairs directory extension fs (files.zip results) := by
  have h := processAux_drop directory extension files results hl files.length 0 fs (by omega)
  simpa using h

lemma process_music_files_eq (fs : FS) (directory : Path) (extension : String)
    (recognize : Path → RecResponse) :
    process_music_files fs directory extension recognize =
      (if (get_music_files_sync fs directory extension).length = 0 then
        .ok (fs, [Event.noFiles])
      else
        match processPairs directory extension fs
            ((get_music_files_sync fs directory extension).zip
              ((get_music_files_sync fs directory extension).map recognize)) with
        | .error e => .error e
        | .ok (fs2, evs) =>
          .ok (fs2, (get_music_files_sync fs directory extension).map Event.network ++ evs)) := by
  show (if (get_music_files_sync fs directory extension).length = 0 then
          Except.ok (fs, [Event.noFiles])
        else
          match processAux directory extension (get_music_files_sync fs directory extension)
              (tasksOf (get_music_files_sync fs directory extension)
                ((get_music_files_sync fs directory extension).map recognize)) fs
              (tasksOf (get_music_files_sync fs directory extension)
                ((get_music_files_sync fs directory extension).map recognize)) with
          | Except.error e => Except.error e
          | Except.ok (fs2, evs) =>
            Except.ok (fs2,
              (get_music_files_sync fs directory extension).map Event.network ++ evs)) = _
  rw [processAux_eq_processPairs _ _ _ _ (List.length_map _ _)]

lemma process_music_files_ok (fs : FS) (directory : Path) (extension : String)
    (recognize : Path → RecResponse) :
    ∃ r, process_music_files fs directory extension recognize = .ok r := by
  rw [process_music_files_eq]
  by_cases h : (get_music_files_sync fs directory extension).length = 0
  · rw [if_pos h]
    exact ⟨_, rfl⟩
  · rw [if_neg h]
    rcases processPairs_ok directory extension
        ((get_music_files_sync fs directory extension).zip
          ((get_music_files_sync fs directory extension).map recognize)) fs with ⟨⟨fs2, evs⟩, hp⟩
    rw [hp]
    exact ⟨_, rfl⟩

/-! ### Shape of the rename events in a trace -/

lemma renameSources_cons_other (e : Event) (evs : List Event)
    (h : ∀ src dst, e ≠ Event.renamed src dst) :
    renameSources (e :: evs) = renameSources evs := by
  unfold renameSources
  rw [List.filterMap_cons]
  cases e with
  | renamed src dst => exact absurd rfl (h src dst)
  | noFiles => rfl
  | network p => rfl
  | noMatch p => rfl
  | renameMsg p s => rfl

lemma handleResult_trace (directory : Path) (extension : String) (fs : FS)
    (f : Path) (r : RecResponse) (fs1 : FS) (evs1 : List Event)
    (h : handleResult directory extension fs f r = .ok (fs1, evs1)) :
    (renameSources evs1).Sublist [f] ∧
      ∀ src dst, Event.renamed src dst ∈ evs1 →
        src = f ∧ ∃ nf, dst = directory ++ [nf] := by
  unfold handleResult at h
  cases hr : r.track with
  | none =>
    rw [hr] at h
    cases h
    constructor
    · exact List.nil_sublist _
    · intro src dst hm
      simp at hm
  | some track =>
    rw [hr] at h
    simp only [] at h
    cases hrs : renameStep fs f
        (directory ++ [newFilenameOf track.title track.subtitle extension]) with
    | error e => rw [hrs] at h; cases h
    | ok out =>
      rcases out with ⟨fs2, revs⟩
      rw [hrs] at h
      cases h
      rcases renameStep_events _ _ _ _ hrs with hrevs | hrevs
      · replace hrevs : revs = [] := hrevs
        subst hrevs
        constructor
        · rw [renameSources_cons_other _ _ (fun src dst hc => by cases hc)]
          exact List.nil_sublist _
        · intro src dst hm
          simp at hm
      · replace hrevs :
            revs = [Event.renamed f
              (directory ++ [newFilenameOf track.title track.subtitle extension])] := hrevs
        subst hrevs
        constructor
        · rw [renameSources_cons_other _ _ (fun src dst hc => by cases hc)]
          exact List.Sublist.refl _
        · intro src dst hm
          rcases List.mem_cons.mp hm with hm | hm
          · simp at hm
          · rw [List.mem_singleton] at hm
            injection hm with h1 h2
            exact ⟨h1, _, h2⟩

lemma processPairs_trace (directory : Path) (extension : String) :
    ∀ (pairs : List (Path × RecResponse)) (fs : FS) (r : FS × List Event),
      processPairs directory extension fs pairs = .ok r →
      (renameSources r.2).Sublist (pairs.map Prod.fst) ∧
        ∀ src dst, Event.renamed src dst ∈ r.2 → ∃ nf, dst = directory ++ [nf] := by
  intro pairs
  induction pairs with
  | nil =>
    intro fs r h
    cases h
    exact ⟨List.nil_sublist _, by intro src dst hm; cases hm⟩
  | cons p rest ih =>
    intro fs r h
    rcases p with ⟨f, res⟩
    unfold processPairs at h
    cases h1 : handleResult directory extension fs f res with
    | error e => rw [h1] at h; cases h
    | ok out1 =>
      rcases out1 with ⟨fs1, evs1⟩
      rw [h1] at h
      simp only [] at h
      cases h2 : processPairs directory extension fs1 rest with
      | error e => rw [h2] at h; cases h
      | ok out2 =>
        rcases out2 with ⟨fs2, evs2⟩
        rw [h2] at h
        cases h
        rcases handleResult_trace _ _ _ _ _ _ _ h1 with ⟨hsub1, hdst1⟩
        rcases ih fs1 (fs2, evs2) h2 with ⟨hsub2, hdst2⟩
        constructor
        · show (renameSources (evs1 ++ evs2)).Sublist (f :: rest.map Prod.fst)
          unfold renameSources at *
          rw [List.filterMap_append]
          exact List.Sublist.append hsub1 hsub2
        · intro src dst hm
          rcases List.mem_append.mp hm with hm | hm
          · exact (hdst1 src dst hm).2
          · exact hdst2 src dst hm

lemma renameSources_networks (files : List Path) :
    renameSources (files.map Event.network) = [] := by
  induction files with
  | nil => rfl
  | cons f rest ih =>
    rw [List.map_cons, renameSources_cons_other _ _ (by intro src dst hc; cases hc)]
    exact ih

/-! ### The claims -/

/-- C1, counterexample.  With title `"Song: Title!"`, artist `"Artist/Name"`
and extension `"mp3"`, the sanitized filename is not
`"ArtistName_-_SongTitle.mp3"` (the space between `Song` and `Title`
survives as an underscore), and a run of two spaces becomes two
underscores, not one. -/
theorem spec_c1_counterexample :
    newFilenameOf (some "Song: Title!") (some "Artist/Name") "mp3"
        ≠ "ArtistName_-_SongTitle.mp3" ∧
      sanitize "a  b" ≠ "a_b" := by
  constructor
  · decide
  · decide

/-- C1, amended.  With title `"Song: Title!"`, artist `"Artist/Name"` and
extension `"mp3"`, the sanitized filename is exactly
`"ArtistName_-_Song_Title.mp3"` (colon, exclamation and slash stripped;
the retained characters are alphanumerics, spaces, hyphens, underscores
and dots), and every space becomes one underscore, so a run of `n` spaces
becomes `n` underscores. -/
theorem spec_c1_amended :
    newFilenameOf (some "Song: Title!") (some "Artist/Name") "mp3"
        = "ArtistName_-_Song_Title.mp3" ∧
      ∀ n : Nat,
        sanitize (String.mk (List.replicate n ' ')) = String.mk (List.replicate n '_') := by
  constructor
  · decide
  · intro n
    show String.mk (sanitizeList (List.replicate n ' ')) = _
    apply congrArg String.mk
    unfold sanitizeList
    rw [List.filter_replicate, if_pos (by decide), List.map_replicate]
    rfl

/-- C5.  The sanitization step (keep alphanumerics, spaces, hyphens,
underscores and dots, then replace spaces with underscores) is
idempotent on every input string. -/
theorem spec_c5_sanitize_idempotent (s : String) : sanitize (sanitize s) = sanitize s := by
  show String.mk (sanitizeList (sanitizeList s.toList)) = String.mk (sanitizeList s.toList)
  exact congrArg String.mk (sanitizeList_idem s.toList)

/-- C3, counterexample.  When the rename target already exists, the rename
is not skipped: on the file system `{d/a.mp3 ↦ 0, d/b.mp3 ↦ 1}`, renaming
`d/a.mp3` to the existing `d/b.mp3` proceeds, removes the source name and
silently replaces the target's content. -/
theorem spec_c3_counterexample :
    fsExists [(["d", "a.mp3"], 0), (["d", "b.mp3"], 1)] ["d", "b.mp3"] = true ∧
      renameStep [(["d", "a.mp3"], 0), (["d", "b.mp3"], 1)] ["d", "a.mp3"] ["d", "b.mp3"]
        = .ok ([(["d", "b.mp3"], 0)], [Event.renamed ["d", "a.mp3"] ["d", "b.mp3"]]) ∧
      fsExists [(["d", "b.mp3"], 0)] ["d", "a.mp3"] = false ∧
      fsGet [(["d", "a.mp3"], 0), (["d", "b.mp3"], 1)] ["d", "b.mp3"] = some 1 ∧
      fsGet [(["d", "b.mp3"], 0)] ["d", "b.mp3"] = some 0 := by
  refine ⟨by decide, by decide, by decide, by decide, by decide⟩

/-- C3, amended.  When the rename target already exists and the source
still exists, the rename is not skipped: it proceeds without raising an
error, the source loses its name, and the existing target is silently
replaced by the source's content (POSIX `rename` semantics). -/
theorem spec_c3_target_replaced (fs : FS) (src dst : Path)
    (hsrc : fsExists fs src = true) (_hdst : fsExists fs dst = true) (hne : src ≠ dst) :
    ∃ fs2, renameStep fs src dst = .ok (fs2, [Event.renamed src dst]) ∧
      fsGet fs2 dst = fsGet fs src ∧ fsExists fs2 src = false := by
  rcases fsGet_isSome_of_fsExists fs src hsrc with ⟨c, hc⟩
  refine ⟨(fs.filter fun e => !(e.1 = src || e.1 = dst)) ++ [(dst, c)], ?_, ?_, ?_⟩
  · unfold renameStep pyRename
    rw [if_pos hsrc, hc]
  · have hnone : (fs.filter fun e => !(e.1 = src || e.1 = dst)).find?
        (fun e => decide (e.1 = dst)) = none := by
      rw [List.find?_eq_none]
      intro x hx
      rcases List.mem_filter.mp hx with ⟨-, hpx⟩
      simp at hpx ⊢
      exact hpx.2
    have hfind : fsGet ((fs.filter fun e => !(e.1 = src || e.1 = dst)) ++ [(dst, c)]) dst
        = some c := by
      unfold fsGet
      rw [List.find?_append, hnone]
      simp
    rw [hfind, hc]
  · unfold fsExists
    rw [List.any_append]
    have h1 : (fs.filter fun e => !(e.1 = src || e.1 = dst)).any
        (fun e => decide (e.1 = src)) = false := by
      rw [List.any_eq_false]
      intro x hx
      rcases List.mem_filter.mp hx with ⟨-, hpx⟩
      simp at hpx ⊢
      exact hpx.1
    have h2 : ([(dst, c)] : FS).any (fun e => decide (e.1 = src)) = false := by
      simp
      exact fun hc2 => hne hc2.symm
    rw [h1, h2]
    rfl

/-- C3, witness for the amended theorem at a concrete file system with an
existing target. -/
theorem spec_c3_witness :
    fsExists [(["d", "x.mp3"], 0), (["d", "y.mp3"], 1)] ["d", "x.mp3"] = true ∧
      fsExists [(["d", "x.mp3"], 0), (["d", "y.mp3"], 1)] ["d", "y.mp3"] = true ∧
      ∃ fs2, renameStep [(["d", "x.mp3"], 0), (["d", "y.mp3"], 1)] ["d", "x.mp3"] ["d", "y.mp3"]
          = .ok (fs2, [Event.renamed ["d", "x.mp3"] ["d", "y.mp3"]]) ∧
        fsGet fs2 ["d", "y.mp3"]
            = fsGet [(["d", "x.mp3"], 0), (["d", "y.mp3"], 1)] ["d", "x.mp3"] ∧
        fsExists fs2 ["d", "x.mp3"] = false :=
  ⟨by decide, by decide,
    spec_c3_target_replaced [(["d", "x.mp3"], 0), (["d", "y.mp3"], 1)]
      ["d", "x.mp3"] ["d", "y.mp3"] (by decide) (by decide) (by decide)⟩

/-- C6.  When the source path no longer exists at rename time, the guarded
rename returns normally: no exception propagates, the file system is
unchanged and no rename event is produced. -/
theorem spec_c6_missing_source (fs : FS) (src dst : Path)
    (h : fsExists fs src = false) :
    renameStep fs src dst = .ok (fs, []) := by
  unfold renameStep
  simp [h]

/-- C6, witness at a concrete file system missing the source. -/
theorem spec_c6_witness :
    fsExists [(["d", "other.mp3"], 7)] ["d", "gone.mp3"] = false ∧
      renameStep [(["d", "other.mp3"], 7)] ["d", "gone.mp3"] ["d", "new.mp3"]
        = .ok ([(["d", "other.mp3"], 7)], []) :=
  ⟨by decide,
    spec_c6_missing_source [(["d", "other.mp3"], 7)] ["d", "gone.mp3"] ["d", "new.mp3"]
      (by decide)⟩

/-- C4.  `main` exits with code 1 exactly when the target path does not
exist, and then with an empty event trace, so before any network request;
for every path that does exist — directory or not — the exit-1 branch is
not taken and the run ends with exit code 0 (the model has no other
failures).  The hypothesis `himp` records that on a real file system
`is_dir()` implies `exists()`. -/
theorem spec_c4_exit_codes (target_exists target_is_dir : Bool)
    (himp : target_is_dir = true → target_exists = true)
    (fs : FS) (target_dir : Path) (extension : String)
    (recognize : Path → RecResponse) :
    (target_exists = false →
        main target_exists target_is_dir fs target_dir extension recognize
          = .ok (1, fs, [])) ∧
      (target_exists = true →
        ∃ fs2 evs, main target_exists target_is_dir fs target_dir extension recognize
          = .ok (0, fs2, evs)) := by
  constructor
  · intro hex
    subst hex
    have hdir : target_is_dir = false := by
      cases hd : target_is_dir
      · rfl
      · exact absurd (himp hd) (by simp)
    unfold main
    rw [hdir]
    rfl
  · intro hex
    subst hex
    unfold main
    rcases process_music_files_ok fs target_dir extension recognize with ⟨⟨fs2, evs⟩, hp⟩
    rw [hp]
    exact ⟨fs2, evs, rfl⟩

/-- C4, witness: a missing path exits 1 with no activity; an existing
directory proceeds to exit 0. -/
theorem spec_c4_witness :
    main false false [] ["missing"] "mp3" (fun _ => RecResponse.mk none)
        = .ok (1, [], []) ∧
      ∃ fs2 evs, main true true [] ["d"] "mp3" (fun _ => RecResponse.mk none)
        = .ok (0, fs2, evs) :=
  ⟨(spec_c4_exit_codes false false (fun h => h) [] ["missing"] "mp3"
      (fun _ => RecResponse.mk none)).1 rfl,
    (spec_c4_exit_codes true true (fun _ => rfl) [] ["d"] "mp3"
      (fun _ => RecResponse.mk none)).2 rfl⟩

/-- C7.  A task whose result lacks a `"track"` field leaves the file
system untouched for its step: the loop emits the per-file "no song
information" message for the corresponding file
(`music_files[results.index(result)]`) and continues with the remaining
tasks from the same state. -/
theorem spec_c7_no_track (directory : Path) (extension : String) (files : List Path)
    (allTasks : List (Nat × RecResponse)) (fs : FS) (i : Nat)
    (rest : List (Nat × RecResponse)) :
    processAux directory extension files allTasks fs ((i, RecResponse.mk none) :: rest)
      = Except.map
          (fun r =>
            (r.1,
              Event.noMatch
                  (files.getD (list_index allTasks (i, RecResponse.mk none)) []) :: r.2))
          (processAux directory extension files allTasks fs rest) := by
  simp only [processAux, handleResult]
  cases hrec : processAux directory extension files allTasks fs rest with
  | error e => rfl
  | ok r =>
    rcases r with ⟨fs2, evs2⟩
    rfl

/-- C8.  When no file in the tree below the target directory matches the
chosen extension, the run reports it, performs no rename, issues no
recognition request and leaves the file system unchanged. -/
theorem spec_c8_no_files (fs : FS) (directory : Path) (extension : String)
    (recognize : Path → RecResponse)
    (h : get_music_files_sync fs directory extension = []) :
    process_music_files fs directory extension recognize = .ok (fs, [Event.noFiles]) ∧
      renameSources [Event.noFiles] = [] ∧ networkRequests [Event.noFiles] = [] := by
  refine ⟨?_, rfl, rfl⟩
  rw [process_music_files_eq, h]
  rfl

/-- C8, witness on an empty directory tree. -/
theorem spec_c8_witness :
    get_music_files_sync [] ["d"] "mp3" = [] ∧
      process_music_files [] ["d"] "mp3" (fun _ => RecResponse.mk none)
        = .ok ([], [Event.noFiles]) :=
  ⟨rfl, (spec_c8_no_files [] ["d"] "mp3" (fun _ => RecResponse.mk none) rfl).1⟩

/-- C9.  On a file system with no duplicate paths, every discovered file
path is the source of at most one rename in the run's trace. -/
theorem spec_c9_rename_at_most_once (fs : FS) (directory : Path) (extension : String)
    (recognize : Path → RecResponse) (r : FS × List Event)
    (hnd : (fs.map Prod.fst).Nodup)
    (h : process_music_files fs directory extension recognize = .ok r) :
    (renameSources r.2).Nodup := by
  rw [process_music_files_eq] at h
  by_cases h0 : (get_music_files_sync fs directory extension).length = 0
  · rw [if_pos h0] at h
    cases h
    exact List.nodup_nil
  · rw [if_neg h0] at h
    cases hp : processPairs directory extension fs
        ((get_music_files_sync fs directory extension).zip
          ((get_music_files_sync fs directory extension).map recognize)) with
    | error e => rw [hp] at h; cases h
    | ok out =>
      rcases out with ⟨fs2, evs⟩
      rw [hp] at h
      cases h
      show (renameSources
        ((get_music_files_sync fs directory extension).map Event.network ++ evs)).Nodup
      have hn := renameSources_networks (get_music_files_sync fs directory extension)
      unfold renameSources at hn ⊢
      rw [List.filterMap_append, hn, List.nil_append]
      have hfilesnd : (get_music_files_sync fs directory extension).Nodup := by
        unfold get_music_files_sync
        exact List.Nodup.filter _ hnd
      have hsub := (processPairs_trace directory extension _ fs (fs2, evs) hp).1
      unfold renameSources at hsub
      rw [List.map_fst_zip _ _ (by rw [List.length_map])] at hsub
      exact List.Nodup.sublist hsub hfilesnd

/-- C9, witness on a one-file directory. -/
theorem spec_c9_witness :
    (([(["m", "a.mp3"], 0)] : FS).map Prod.fst).Nodup ∧
      process_music_files [(["m", "a.mp3"], 0)] ["m"] "mp3"
          (fun _ => RecResponse.mk (some (Track.mk (some "T") (some "A"))))
        = .ok ([(["m", "A_-_T.mp3"], 0)],
            [Event.network ["m", "a.mp3"],
             Event.renameMsg ["m", "a.mp3"] "A_-_T.mp3",
             Event.renamed ["m", "a.mp3"] ["m", "A_-_T.mp3"]]) ∧
      (renameSources
          [Event.network ["m", "a.mp3"],
           Event.renameMsg ["m", "a.mp3"] "A_-_T.mp3",
           Event.renamed ["m", "a.mp3"] ["m", "A_-_T.mp3"]]).Nodup :=
  ⟨by decide, by decide,
    spec_c9_rename_at_most_once [(["m", "a.mp3"], 0)] ["m"] "mp3"
      (fun _ => RecResponse.mk (some (Track.mk (some "T") (some "A"))))
      ([(["m", "A_-_T.mp3"], 0)],
        [Event.network ["m", "a.mp3"],
         Event.renameMsg ["m", "a.mp3"] "A_-_T.mp3",
         Event.renamed ["m", "a.mp3"] ["m", "A_-_T.mp3"]])
      (by decide) (by decide)⟩

/-- C2, counterexample.  A file discovered in a subdirectory of the target
directory is not renamed within its own directory: renaming `m/sub/a.mp3`
produces `m/A_-_T.mp3`, whose parent directory `["m"]` differs from the
source's parent `["m", "sub"]`. -/
theorem spec_c2_counterexample :
    process_music_files [(["m", "sub", "a.mp3"], 0)] ["m"] "mp3"
        (fun _ => RecResponse.mk (some (Track.mk (some "T") (some "A"))))
      = .ok ([(["m", "A_-_T.mp3"], 0)],
          [Event.network ["m", "sub", "a.mp3"],
           Event.renameMsg ["m", "sub", "a.mp3"] "A_-_T.mp3",
           Event.renamed ["m", "sub", "a.mp3"] ["m", "A_-_T.mp3"]]) ∧
      List.dropLast ["m", "A_-_T.mp3"] ≠ List.dropLast ["m", "sub", "a.mp3"] := by
  refine ⟨by decide, by decide⟩

/-- C2, amended.  The rename destination is always directly inside the
top-level target directory: a file found there is renamed in place, but a
file found in a subdirectory is moved into the target directory. -/
theorem spec_c2_dest_in_target_dir (fs : FS) (directory : Path) (extension : String)
    (recognize : Path → RecResponse) (r : FS × List Event)
    (h : process_music_files fs directory extension recognize = .ok r)
    (src dst : Path) (hm : Event.renamed src dst ∈ r.2) :
    List.dropLast dst = directory := by
  rw [process_music_files_eq] at h
  by_cases h0 : (get_music_files_sync fs directory extension).length = 0
  · rw [if_pos h0] at h
    cases h
    simp at hm
  · rw [if_neg h0] at h
    cases hp : processPairs directory extension fs
        ((get_music_files_sync fs directory extension).zip
          ((get_music_files_sync fs directory extension).map recognize)) with
    | error e => rw [hp] at h; cases h
    | ok out =>
      rcases out with ⟨fs2, evs⟩
      rw [hp] at h
      cases h
      replace hm : Event.renamed src dst ∈
          (get_music_files_sync fs directory extension).map Event.network ++ evs := hm
      rcases List.mem_append.mp hm with hm | hm
      · rcases List.mem_map.mp hm with ⟨p, -, hpe⟩
        cases hpe
      · rcases (processPairs_trace directory extension _ fs (fs2, evs) hp).2 src dst hm
          with ⟨nf, rfl⟩
        rw [List.dropLast_concat]

/-- C2, witness: in the subdirectory run the destination's parent is the
target directory. -/
theorem spec_c2_witness : List.dropLast ["m", "A_-_T.mp3"] = ["m"] :=
  spec_c2_dest_in_target_dir [(["m", "sub", "b.mp3"], 0)] ["m"] "mp3"
    (fun _ => RecResponse.mk (some (Track.mk (some "T") (some "A"))))
    ([(["m", "A_-_T.mp3"], 0)],
      [Event.network ["m", "sub", "b.mp3"],
       Event.renameMsg ["m", "sub", "b.mp3"] "A_-_T.mp3",
       Event.renamed ["m", "sub", "b.mp3"] ["m", "A_-_T.mp3"]])
    (by decide) ["m", "sub", "b.mp3"] ["m", "A_-_T.mp3"] (by decide)

/-- C10.  The loop's `music_files[results.index(result)]` lookup pairs each
result with its originating file: for every result list — equal results
included, since tasks compare by identity — the loop over the task list is
the in-order processing of the (file, result) pairs. -/
theorem spec_c10_pairing (directory : Path) (extension : String) (files : List Path)
    (results : List RecResponse) (fs : FS) (hl : results.length = files.length) :
    processAux directory extension files (tasksOf files results) fs (tasksOf files results)
      = processPairs directory extension fs (files.zip results) :=
  processAux_eq_processPairs directory extension files results hl fs

/-- C10, witness: two distinct files whose recognition calls return equal
results are still paired with their own paths. -/
theorem spec_c10_witness :
    ([RecResponse.mk (some (Track.mk (some "T") (some "A"))),
        RecResponse.mk (some (Track.mk (some "T") (some "A")))].length
      = [(["d", "a.mp3"] : Path), ["d", "b.mp3"]].length) ∧
      processAux ["d"] "mp3" [["d", "a.mp3"], ["d", "b.mp3"]]
          (tasksOf [["d", "a.mp3"], ["d", "b.mp3"]]
            [RecResponse.mk (some (Track.mk (some "T") (some "A"))),
             RecResponse.mk (some (Track.mk (some "T") (some "A")))])
          [(["d", "a.mp3"], 0), (["d", "b.mp3"], 1)]
          (tasksOf [["d", "a.mp3"], ["d", "b.mp3"]]
            [RecResponse.mk (some (Track.mk (some "T") (some "A"))),
             RecResponse.mk (some (Track.mk (some "T") (some "A")))])
        = processPairs ["d"] "mp3" [(["d", "a.mp3"], 0), (["d", "b.mp3"], 1)]
            ([["d", "a.mp3"], ["d", "b.mp3"]].zip
              [RecResponse.mk (some (Track.mk (some "T") (some "A"))),
               RecResponse.mk (some (Track.mk (some "T") (some "A")))]) :=
  ⟨by decide,
    spec_c10_pairing ["d"] "mp3" [["d", "a.mp3"], ["d", "b.mp3"]]
      [RecResponse.mk (some (Track.mk (some "T") (some "A"))),
       RecResponse.mk (some (Track.mk (some "T") (some "A")))]
      [(["d", "a.mp3"], 0), (["d", "b.mp3"], 1)] (by decide)⟩

end MusicOrg
